import Mathlib

/-!
Verification of the section-extraction and relevance-ranking engine
(`pdf_processor.py`, `content_analyzer.py`, `persona_matcher.py`,
`document_intelligence.py`).

Shallow embedding conventions:
* Python `str` is Lean `String`; `str.strip()` is `stripS`,
  `str.split()` is split on whitespace with empties dropped (`splitWords`),
  `str.splitlines()` is modelled as splitting on `'\n'` (the trailing
  `strip` of each line also removes any `'\r'` left by CRLF endings).
* Python character classes (`\d`, `\s`, `[A-Z]`, `isupper`, `isdigit`) are
  modelled by their ASCII meaning (`Char.isDigit`, `Char.isWhitespace`,
  `Char.isUpper`); the repository's heuristics operate on ASCII text.
* Python floats are modelled exactly: rationals (`ℚ`) where the code only
  divides, reals (`ℝ`) where `math.sqrt`/`math.log` appear.
* Python dicts with string keys are association lists `List (String × _)`
  (insertion order preserved, keys unique by construction).
-/

namespace Adobe

/-! ## Data model

A section as produced by `parse_pdf`; `document` is `none` until the caller
annotates the section (`sec_copy["document"] = filename` in `main.py`), and
reads of the missing key (`sec.get("document", "")`) are `.getD ""`. -/

structure Sec where
  section_title : String
  text : String
  page_number : Nat
  document : Option String
deriving DecidableEq, Repr

/-! ## String primitives

Core `String` functions such as `String.trim` and `String.split` are
implemented on `String.Pos` with well-founded recursion and do not reduce
inside the kernel, so the Python string operations are modelled by
structurally recursive functions on `List Char`. -/

/-- ASCII letter, the character class `[A-Za-z]` of `re.sub(r"[^A-Za-z]", ...)`. -/
def isAsciiLetter (c : Char) : Bool :=
  ('A' ≤ c && c ≤ 'Z') || ('a' ≤ c && c ≤ 'z')

/-- Python `str.strip()` on a character list. -/
def pyStrip (cs : List Char) : List Char :=
  ((cs.dropWhile Char.isWhitespace).reverse.dropWhile Char.isWhitespace).reverse

/-- Python `str.strip()`. -/
def stripS (s : String) : String := ⟨pyStrip s.data⟩

/-- Accumulating worker for `splitWords`; `w` holds the current word reversed. -/
def splitWSAux : List Char → List Char → List String
  | [], w => if w = [] then [] else [⟨w.reverse⟩]
  | c :: cs, w =>
    if c.isWhitespace then
      if w = [] then splitWSAux cs [] else ⟨w.reverse⟩ :: splitWSAux cs []
    else splitWSAux cs (c :: w)

/-- Python `str.split()`: split on whitespace runs, dropping empty tokens. -/
def splitWords (s : String) : List String := splitWSAux s.data []

/-- Worker for `str.splitlines()`, modelled as splitting on `'\n'`. -/
def splitNlAux : List Char → List Char → List String
  | [], cur => [⟨cur.reverse⟩]
  | c :: cs, cur =>
    if c = '\n' then ⟨cur.reverse⟩ :: splitNlAux cs []
    else splitNlAux cs (c :: cur)

/-- `"sep".join(parts)` for a single-space separator. -/
def joinWithSpace : List String → String
  | [] => ""
  | [s] => s
  | s :: t :: rest => s ++ " " ++ joinWithSpace (t :: rest)

/-- Python `str.lower()` (ASCII). -/
def lowerS (s : String) : String := ⟨s.data.map Char.toLower⟩

/-- Python `str.endswith(suffix)`. -/
def endsWithS (s suff : String) : Bool := suff.data.isSuffixOf s.data

/-- Python slicing `s[:n]` (by code point, as Python indexes by character). -/
def takeS (s : String) (n : Nat) : String := ⟨s.data.take n⟩

/-! ## Segmenter (`pdf_processor.py`) -/

/-- Drop the maximal leading digit run of a character list. -/
def dropDigitsL : List Char → List Char
  | [] => []
  | c :: cs => if c.isDigit then dropDigitsL cs else c :: cs

/-- After `\d+` and a literal `.` have been consumed, the regex
`^(\d+\.\d*|\d+|[A-Z])\.\s` accepts either a whitespace character
(alternative `\d+` then `\.` `\s`) or `\d*` `\.` `\s` (alternative
`\d+\.\d*` then `\.` `\s`); backtracking inside `\d*` can only stop at the
end of the maximal digit run, since the following character must be `'.'`. -/
def enumTail (r : List Char) : Bool :=
  (match r with
   | d :: _ => d.isWhitespace
   | [] => false)
  ||
  (match dropDigitsL r with
   | '.' :: d :: _ => d.isWhitespace
   | _ => false)

/-- `re.match(r"^(\d+\.\d*|\d+|[A-Z])\.\s", text)` as a Boolean on the
character list of `text`. -/
def matchEnum : List Char → Bool
  | [] => false
  | c :: rest =>
    if 'A' ≤ c && c ≤ 'Z' then
      match rest with
      | '.' :: d :: _ => d.isWhitespace
      | _ => false
    else if c.isDigit then
      match dropDigitsL (c :: rest) with
      | '.' :: r => enumTail r
      | _ => false
    else false

/-- Number of words whose first character is uppercase or a digit
(`sum(1 for w in words if w and (w[0].isupper() or w[0].isdigit()))`;
words from `str.split()` are never empty). -/
def capCount (ws : List String) : Nat :=
  (ws.filter fun w =>
    match w.data with
    | c :: _ => c.isUpper || c.isDigit
    | [] => false).length

/-- `_is_heading` of `pdf_processor.py`.  The float comparison
`cap_count / len(words) >= 0.6` is modelled exactly as
`3 * len(words) ≤ 5 * cap_count`; with `len(words) ≤ 15` the rational
value of the quotient is never close enough to `0.6` for double rounding
to disagree with the exact comparison. -/
def isHeading (line : String) : Bool :=
  let text := stripS line
  if text = "" then false
  else if 100 < text.length then false
  else
    let words := splitWords text
    if 15 < words.length then false
    else if matchEnum text.data then true
    else if 3 * words.length ≤ 5 * capCount words then true
    else
      let letters := text.data.filter isAsciiLetter
      !letters.isEmpty && letters.all Char.isUpper

/-- `" ".join(current_lines).strip()`. -/
def joinBody (cur : List String) : String :=
  stripS (joinWithSpace cur)

/-- The section flushed for an open heading `t` with body lines `cur`. -/
def flushSec (p : Nat) (t : String) (cur : List String) : Sec :=
  { section_title := t, text := joinBody cur, page_number := p, document := none }

/-- The per-page grouping loop of `parse_pdf`.  State: the open heading
(`current_title`) and its accumulated body lines (`current_lines`).
On the empty input the two end-of-page branches of the code run:
`if current_title is not None and current_lines` flushes the open pair,
and `elif current_title is None and lines` emits the synthetic page
section — at that point `current_lines` equals the whole line list, so
`lines` being non-empty is `cur.isEmpty = false`. -/
def segLoop (p : Nat) : List String → Option String → List String → List Sec
  | [], some t, cur => if cur.isEmpty then [] else [flushSec p t cur]
  | [], none, cur =>
    if cur.isEmpty then []
    else [{ section_title := "Page " ++ toString p, text := joinBody cur,
            page_number := p, document := none }]
  | l :: rest, tOpt, cur =>
    if isHeading l then
      (match tOpt with
       | some t => [flushSec p t cur]
       | none => []) ++ segLoop p rest (some l) []
    else
      segLoop p rest tOpt (cur ++ [l])

/-- `[ln.strip() for ln in page_text.splitlines() if ln.strip()]`. -/
def linesOfPage (rawText : String) : List String :=
  ((splitNlAux rawText.data []).map stripS).filter (fun l => l ≠ "")

/-- Sections produced from the (already stripped, non-empty) lines of one page. -/
def sectionsOfLines (p : Nat) (lines : List String) : List Sec :=
  segLoop p lines none []

/-- Sections produced from the raw text of page `p`. -/
def pageSections (p : Nat) (rawText : String) : List Sec :=
  sectionsOfLines p (linesOfPage rawText)

/-- The page loop of `parse_pdf`: pages are numbered from 1; a page whose
text extraction failed (`except RuntimeError: continue`) is `none` and is
skipped. -/
def buildAllPages (pages : List (Option String)) : List Sec :=
  ((List.enumFrom 1 pages).filterMap fun np =>
    np.2.map fun t => pageSections np.1 t).flatten

/-- `parse_pdf`: the path validity check and the page loop.  `pathExists`
abstracts `os.path.exists(filepath)`; a raised `ValueError` is the
`Except.error` branch. -/
def parse_pdf (pathExists : Bool) (filepath : String) (pages : List (Option String)) :
    Except String (List Sec) :=
  if !pathExists || !(endsWithS (lowerS filepath) ".pdf") then
    Except.error ("Invalid PDF path: " ++ filepath)
  else
    Except.ok (buildAllPages pages)

/-! ## Persona / Job descriptors

`persona.get("role", "")` etc. read optional dict keys with an empty-string
default, so the descriptors carry `Option String` fields. -/

structure Persona where
  role : Option String
  description : Option String

structure Job where
  task : Option String

def personaRole (p : Persona) : String := p.role.getD ""

def personaDesc (p : Persona) : String := p.description.getD ""

def jobTask (j : Job) : String := j.task.getD ""

/-! ## Vectorizer and Relevance Scorer (`content_analyzer.py`)

Scores are modelled in exact arithmetic: `ℝ` (the code uses `math.sqrt` and
`math.log`).  A Python dict of term weights is an association list
`List (String × ℝ)` with pairwise distinct keys by construction. -/

def WEIGHT_SEMANTIC : ℝ := 0.40
def WEIGHT_PERSONA : ℝ := 0.25
def WEIGHT_ACTION : ℝ := 0.20
def WEIGHT_CROSS_DOC : ℝ := 0.15

def ACTION_VERBS : List String :=
  ["create", "design", "develop", "optimize", "optimise",
   "evaluate", "analyze", "analyse", "build", "identify", "summarize",
   "summarise", "implement", "compare", "assess", "improve", "discover",
   "predict", "plan", "execute", "monitor", "measure"]

/-- ASCII letter or digit, the class `[a-zA-Z0-9]`. -/
def isAsciiAlnum (c : Char) : Bool := isAsciiLetter c || c.isDigit

/-- `re.sub(r"[^a-zA-Z0-9\s]", " ", text.lower())`, the shared clean-up of
`_clean_text` and `_tokenize`. -/
def cleanChars (s : String) : String :=
  ⟨s.data.map fun c =>
    let lc := c.toLower
    if isAsciiAlnum lc || lc.isWhitespace then lc else ' '⟩

/-- `_tokenize`: clean then split on whitespace. -/
def _tokenize (s : String) : List String := splitWords (cleanChars s)

/-- The distinct elements of a list in first-occurrence order (a Python
`set`/`Counter` key view where only membership and cardinality matter). -/
def distinctL {α : Type} [DecidableEq α] : List α → List α
  | [] => []
  | a :: l => a :: (distinctL l).filter (fun b => b ≠ a)

/-- `_compute_tf`: term counts divided by total token count (`{}` for `[]`). -/
noncomputable def _compute_tf (words : List String) : List (String × ℝ) :=
  (distinctL words).map fun w => (w, (words.count w : ℝ) / (words.length : ℝ))

/-- Number of documents containing the token at least once (`doc_counts`). -/
def docCount (docs : List (List String)) (tok : String) : Nat :=
  (docs.filter fun d => d.contains tok).length

/-- `_compute_idf` followed by the `.get(word, 0.0)` read used in
`_compute_tfidf_vector`: tokens in no document are absent from the dict and
read as `0.0`. -/
noncomputable def idfVal (docs : List (List String)) (tok : String) : ℝ :=
  if docCount docs tok = 0 then 0
  else Real.log ((1 + docs.length) / (1 + (docCount docs tok : ℝ))) + 1

/-- `_compute_tfidf_vector`. -/
noncomputable def _compute_tfidf_vector (tf : List (String × ℝ)) (idf : String → ℝ) :
    List (String × ℝ) :=
  tf.map fun p => (p.1, p.2 * idf p.1)

/-- `vec.get(word, 0.0)` on an association list. -/
noncomputable def valAt (v : List (String × ℝ)) (k : String) : ℝ :=
  (v.lookup k).getD 0

/-- One direction of the dot-product loop: iterate over `v1`, looking each
key up in `v2`. -/
noncomputable def dotOver (v1 v2 : List (String × ℝ)) : ℝ :=
  (v1.map fun p => p.2 * valAt v2 p.1).sum

/-- `sum(v * v for v in vec.values())`. -/
noncomputable def sumSq (v : List (String × ℝ)) : ℝ :=
  (v.map fun p => p.2 * p.2).sum

/-- `_cosine_similarity`: empty-dict guard, dot product iterating over the
smaller dict, L2 norms, zero-norm guard. -/
noncomputable def _cosine_similarity (v1 v2 : List (String × ℝ)) : ℝ :=
  if v1.isEmpty || v2.isEmpty then 0
  else
    let dot := if v1.length < v2.length then dotOver v1 v2 else dotOver v2 v1
    let norm1 := Real.sqrt (sumSq v1)
    let norm2 := Real.sqrt (sumSq v2)
    if norm1 = 0 ∨ norm2 = 0 then 0 else dot / (norm1 * norm2)

/-- `compute_semantic_similarity`: TF-IDF vectors over the query plus all
section texts, cosine similarity of each section against the query. -/
noncomputable def compute_semantic_similarity (sections : List Sec) (query : String) :
    List ℝ :=
  let sectionTokens := sections.map fun sec => _tokenize sec.text
  let queryTokens := _tokenize query
  let docs := queryTokens :: sectionTokens
  let queryVec := _compute_tfidf_vector (_compute_tf queryTokens) (idfVal docs)
  sectionTokens.map fun tokens =>
    _cosine_similarity (_compute_tfidf_vector (_compute_tf tokens) (idfVal docs)) queryVec

/-- `compute_persona_match`: fraction of distinct persona words appearing in
the section text. -/
noncomputable def compute_persona_match (sections : List Sec) (personaRoleStr : String) :
    List ℝ :=
  let personaWords := distinctL (splitWords (cleanChars personaRoleStr))
  sections.map fun sec =>
    let secWords := distinctL (splitWords (cleanChars sec.text))
    if personaWords.isEmpty || secWords.isEmpty then 0
    else ((personaWords.filter fun w => secWords.contains w).length : ℝ) /
      (personaWords.length : ℝ)

/-- `compute_actionability`: fraction of section words that are action verbs. -/
noncomputable def compute_actionability (sections : List Sec) : List ℝ :=
  sections.map fun sec =>
    let words := splitWords (cleanChars sec.text)
    if words.isEmpty then 0
    else ((words.filter fun w => ACTION_VERBS.contains w).length : ℝ) /
      (words.length : ℝ)

/-- `freq_map[title]`: number of distinct `document` values among sections
with this exact title. -/
def freqOf (sections : List Sec) (title : String) : Nat :=
  (distinctL ((sections.filter fun s => s.section_title == title).map
    fun s => s.document.getD "")).length

/-- `max(freq_map.values()) if freq_map else 1`. -/
def maxFreq (sections : List Sec) : Nat :=
  match (distinctL (sections.map fun s => s.section_title)).map (freqOf sections) with
  | [] => 1
  | x :: xs => xs.foldl max x

/-- `compute_cross_document_importance`. -/
noncomputable def compute_cross_document_importance (sections : List Sec) : List ℝ :=
  sections.map fun sec =>
    (freqOf sections sec.section_title : ℝ) / (maxFreq sections : ℝ)

/-- Python `min` of a non-empty list `a :: l`. -/
def minL {α : Type} [LinearOrder α] (a : α) (l : List α) : α := l.foldl min a

/-- Python `max` of a non-empty list `a :: l`. -/
def maxL {α : Type} [LinearOrder α] (a : α) (l : List α) : α := l.foldl max a

/-- The inner `normalise` of `compute_relevance_scores`: min-max
normalization, all zeros when every value is equal. -/
noncomputable def normalise (arr : List ℝ) : List ℝ :=
  match arr with
  | [] => []
  | a :: rest =>
    let mx := maxL a rest
    let mn := minL a rest
    if mx = mn then (a :: rest).map fun _ => (0 : ℝ)
    else (a :: rest).map fun x => (x - mn) / (mx - mn)

/-- `query = f"{persona_role} {persona_desc} {job_task}".strip()`. -/
def queryOf (p : Persona) (j : Job) : String :=
  stripS (personaRole p ++ " " ++ personaDesc p ++ " " ++ jobTask j)

/-- The normalized semantic signal of `compute_relevance_scores`. -/
noncomputable def semNorm (sections : List Sec) (p : Persona) (j : Job) : List ℝ :=
  normalise (compute_semantic_similarity sections (queryOf p j))

/-- The normalized persona-overlap signal (the code passes
`persona_role + " " + persona_desc`). -/
noncomputable def persNorm (sections : List Sec) (p : Persona) : List ℝ :=
  normalise (compute_persona_match sections (personaRole p ++ " " ++ personaDesc p))

/-- The normalized actionability signal. -/
noncomputable def actNorm (sections : List Sec) : List ℝ :=
  normalise (compute_actionability sections)

/-- The normalized cross-document signal. -/
noncomputable def crossNorm (sections : List Sec) : List ℝ :=
  normalise (compute_cross_document_importance sections)

/-- `compute_relevance_scores`: the weighted sum over
`for i in range(len(sections))`. -/
noncomputable def compute_relevance_scores (sections : List Sec) (p : Persona) (j : Job) :
    List ℝ :=
  (List.range sections.length).map fun i =>
    WEIGHT_SEMANTIC * (semNorm sections p j).getD i 0 +
    WEIGHT_PERSONA * (persNorm sections p).getD i 0 +
    WEIGHT_ACTION * (actNorm sections).getD i 0 +
    WEIGHT_CROSS_DOC * (crossNorm sections).getD i 0

/-! ## Ranker (`persona_matcher.py`)

`paired.sort(key=lambda x: x[1], reverse=True)` is Python's stable sort,
descending on the score; any stable sort with the same key produces the same
list, so it is modelled by an insertion sort that inserts each element (which
precedes the already-sorted later elements in the input) before the later
elements of equal key. -/

def insertDesc {α K : Type} [LinearOrder K] (x : α × K) : List (α × K) → List (α × K)
  | [] => [x]
  | y :: ys => if y.2 ≤ x.2 then x :: y :: ys else y :: insertDesc x ys

def sortDesc {α K : Type} [LinearOrder K] : List (α × K) → List (α × K)
  | [] => []
  | x :: l => insertDesc x (sortDesc l)

/-- A ranked section: the copied input dict plus the `importance_rank` and
`_score` keys added by `rank_sections`. -/
structure Ranked where
  sec : Sec
  importance_rank : Nat
  score : ℝ

/-- `rank_sections`. -/
noncomputable def rank_sections (sections : List Sec) (p : Persona) (j : Job) :
    List Ranked :=
  if sections.isEmpty then []
  else
    let scores := compute_relevance_scores sections p j
    let paired := sections.zip scores
    let sorted := sortDesc paired
    sorted.enum.map fun ie => ⟨ie.2.1, ie.1 + 1, ie.2.2⟩

/-! ## Refiner (`document_intelligence.py`)

Sentence scores are ratios of natural numbers, so the Refiner is modelled
over `ℚ` and stays computable. -/

def isSentPunct (c : Char) : Bool := c = '.' || c = '!' || c = '?'

/-- `re.split(r"(?<=[.!?])\s+", text)`: cut at each whitespace run whose
preceding character is `.`, `!` or `?`.  `cur` holds the current segment
reversed, so its head is the previously read character.  The split fires on
the first whitespace character of the run; the run's remaining whitespace is
carried as the leading whitespace of the next part (the head of an
all-whitespace `cur` is not `[.!?]`, so no further cut happens inside the
run), and `_split_into_sentences` strips every part, so the resulting
sentence list coincides with `re.split` followed by the strip. -/
def sentSplitAux : List Char → List Char → List String
  | [], cur => [⟨cur.reverse⟩]
  | c :: rest, cur =>
    if c.isWhitespace && (match cur with | p :: _ => isSentPunct p | [] => false) then
      ⟨cur.reverse⟩ :: sentSplitAux rest []
    else
      sentSplitAux rest (c :: cur)

/-- `_split_into_sentences`. -/
def _split_into_sentences (text : String) : List String :=
  ((sentSplitAux text.data []).map stripS).filter fun p => 20 < p.length

/-- `_score_sentence`: distinct sentence words that are query terms, divided
by the number of distinct sentence words. -/
def _score_sentence (sentence : String) (queryTerms : List String) : ℚ :=
  let words := splitWords (cleanChars sentence)
  if words.isEmpty then 0
  else
    let uniq := distinctL words
    ((uniq.filter fun w => queryTerms.contains w).length : ℚ) / (uniq.length : ℚ)

/-- The query-term set of `refine_subsections` (no trailing `strip` on the
f-string here, unlike `compute_relevance_scores`). -/
def queryTermsOf (p : Persona) (j : Job) : List String :=
  distinctL (splitWords (cleanChars
    (personaRole p ++ " " ++ personaDesc p ++ " " ++ jobTask j)))

structure Excerpt where
  document : Option String
  refined_text : String
  page_number : Nat
deriving DecidableEq, Repr

/-- The body of the per-section loop of `refine_subsections`. -/
def refineOne (qts : List String) (sec : Sec) : Excerpt :=
  let sentences := _split_into_sentences sec.text
  let refined :=
    if sentences.isEmpty then takeS (stripS sec.text) 300
    else
      let scored := sentences.map fun s => (s, _score_sentence s qts)
      stripS (joinWithSpace (((sortDesc scored).take 2).map Prod.fst))
  { document := sec.document, refined_text := refined, page_number := sec.page_number }

/-- `refine_subsections`: only the first `top_n` sections are processed. -/
def refine_subsections (ranked : List Sec) (p : Persona) (j : Job) (top_n : Nat) :
    List Excerpt :=
  (ranked.take top_n).map (refineOne (queryTermsOf p j))

/-! ## min/max fold lemmas -/

theorem foldl_min_le_init {α : Type} [LinearOrder α] :
    ∀ (l : List α) (a : α), l.foldl min a ≤ a
  | [], a => le_refl a
  | b :: l, a => le_trans (foldl_min_le_init l (min a b)) (min_le_left a b)

theorem init_le_foldl_max {α : Type} [LinearOrder α] :
    ∀ (l : List α) (a : α), a ≤ l.foldl max a
  | [], a => le_refl a
  | b :: l, a => le_trans (le_max_left a b) (init_le_foldl_max l (max a b))

theorem foldl_min_le_mem {α : Type} [LinearOrder α] (l : List α) :
    ∀ (a x : α), x ∈ l → l.foldl min a ≤ x := by
  induction l with
  | nil => intro a x hx; cases hx
  | cons b l ih =>
    intro a x hx
    rw [List.foldl_cons]
    rcases List.mem_cons.mp hx with h | h
    · subst h; exact le_trans (foldl_min_le_init l (min a x)) (min_le_right a x)
    · exact ih (min a b) x h

theorem mem_le_foldl_max {α : Type} [LinearOrder α] (l : List α) :
    ∀ (a x : α), x ∈ l → x ≤ l.foldl max a := by
  induction l with
  | nil => intro a x hx; cases hx
  | cons b l ih =>
    intro a x hx
    rw [List.foldl_cons]
    rcases List.mem_cons.mp hx with h | h
    · subst h; exact le_trans (le_max_right a x) (init_le_foldl_max l (max a x))
    · exact ih (max a b) x h

theorem minL_le {α : Type} [LinearOrder α] (a : α) (l : List α) :
    ∀ x ∈ a :: l, minL a l ≤ x := by
  intro x hx
  rcases List.mem_cons.mp hx with h | h
  · subst h; exact foldl_min_le_init l x
  · exact foldl_min_le_mem l a x h

theorem le_maxL {α : Type} [LinearOrder α] (a : α) (l : List α) :
    ∀ x ∈ a :: l, x ≤ maxL a l := by
  intro x hx
  rcases List.mem_cons.mp hx with h | h
  · subst h; exact init_le_foldl_max l x
  · exact mem_le_foldl_max l a x h

theorem minL_le_maxL {α : Type} [LinearOrder α] (a : α) (l : List α) :
    minL a l ≤ maxL a l :=
  le_trans (minL_le a l a (List.mem_cons_self a l)) (le_maxL a l a (List.mem_cons_self a l))

theorem foldl_min_const {α : Type} [LinearOrder α] :
    ∀ (l : List α) (a : α), (∀ x ∈ l, x = a) → l.foldl min a = a
  | [], a, _ => rfl
  | b :: l, a, h => by
    have hb : b = a := h b (List.mem_cons_self b l)
    rw [List.foldl_cons, hb, min_self]
    exact foldl_min_const l a fun x hx => h x (List.mem_cons_of_mem _ hx)

theorem foldl_max_const {α : Type} [LinearOrder α] :
    ∀ (l : List α) (a : α), (∀ x ∈ l, x = a) → l.foldl max a = a
  | [], a, _ => rfl
  | b :: l, a, h => by
    have hb : b = a := h b (List.mem_cons_self b l)
    rw [List.foldl_cons, hb, max_self]
    exact foldl_max_const l a fun x hx => h x (List.mem_cons_of_mem _ hx)

/-! ## normalise lemmas -/

/-- On a non-empty array, `max == min` holds exactly when every value equals
the first one. -/
theorem maxL_eq_minL_iff (a : ℝ) (rest : List ℝ) :
    maxL a rest = minL a rest ↔ ∀ x ∈ a :: rest, x = a := by
  constructor
  · intro h x hx
    have h1 := minL_le a rest x hx
    have h2 := le_maxL a rest x hx
    have h3 := minL_le a rest a (List.mem_cons_self a rest)
    have h4 := le_maxL a rest a (List.mem_cons_self a rest)
    rw [h] at h2
    linarith
  · intro h
    have hmax : maxL a rest = a :=
      foldl_max_const rest a fun x hx => h x (List.mem_cons_of_mem _ hx)
    have hmin : minL a rest = a :=
      foldl_min_const rest a fun x hx => h x (List.mem_cons_of_mem _ hx)
    rw [hmax, hmin]

/-- Every entry of a normalized array lies in `[0, 1]`. -/
theorem normalise_mem_range (arr : List ℝ) : ∀ y ∈ normalise arr, 0 ≤ y ∧ y ≤ 1 := by
  match arr with
  | [] => intro y hy; cases hy
  | a :: rest =>
    intro y hy
    rw [normalise] at hy
    by_cases h : maxL a rest = minL a rest
    · rw [if_pos h] at hy
      rcases List.mem_map.mp hy with ⟨x, _, hxy⟩
      subst hxy
      norm_num
    · rw [if_neg h] at hy
      rcases List.mem_map.mp hy with ⟨x, hx, hxy⟩
      subst hxy
      have hlt : minL a rest < maxL a rest :=
        lt_of_le_of_ne (minL_le_maxL a rest) (fun he => h he.symm)
      have h1 := minL_le a rest x hx
      have h2 := le_maxL a rest x hx
      constructor
      · exact div_nonneg (by linarith) (by linarith)
      · rw [div_le_one (by linarith)]
        linarith

theorem normalise_length (arr : List ℝ) : (normalise arr).length = arr.length := by
  match arr with
  | [] => rfl
  | a :: rest =>
    rw [normalise]
    by_cases h : maxL a rest = minL a rest
    · rw [if_pos h, List.length_map]
    · rw [if_neg h, List.length_map]

/-- C7: on a non-empty array whose values are all equal, min-max
normalization returns the all-zero array of the same length; otherwise it
maps each value `x` to `(x - min) / (max - min)`, which lands in `[0, 1]`. -/
theorem c7_normalise_minmax (a : ℝ) (rest : List ℝ) :
    ((∀ x ∈ a :: rest, x = a) →
      normalise (a :: rest) = List.replicate (a :: rest).length (0 : ℝ)) ∧
    (¬(∀ x ∈ a :: rest, x = a) →
      normalise (a :: rest) =
        (a :: rest).map (fun x => (x - minL a rest) / (maxL a rest - minL a rest)) ∧
      ∀ y ∈ normalise (a :: rest), 0 ≤ y ∧ y ≤ 1) := by
  constructor
  · intro h
    rw [normalise, if_pos ((maxL_eq_minL_iff a rest).mpr h)]
    simp [List.map_const, List.eq_replicate_iff]
  · intro h
    refine ⟨?_, normalise_mem_range _⟩
    rw [normalise, if_neg (fun he => h ((maxL_eq_minL_iff a rest).mp he))]

/-- Witness for C7: the constant array `[2, 2]` normalizes to `[0, 0]`, and a
non-constant array maps through `(x - min) / (max - min)`. -/
theorem c7_normalise_witness :
    (∀ x ∈ [(2 : ℝ), 2], x = 2) ∧
    normalise [(2 : ℝ), 2] = List.replicate 2 (0 : ℝ) ∧
    ¬(∀ x ∈ [(0 : ℝ), 1], x = 0) ∧
    normalise [(0 : ℝ), 1] =
      [(0 : ℝ), 1].map (fun x => (x - minL 0 [1]) / (maxL 0 [1] - minL 0 [1])) :=
  ⟨by intro x hx; rcases List.mem_cons.mp hx with h | h; exact h;
      simpa using h,
   (c7_normalise_minmax 2 [2]).1 (by
      intro x hx; rcases List.mem_cons.mp hx with h | h; exact h; simpa using h),
   by intro h; have := h 1 (by simp); norm_num at this,
   ((c7_normalise_minmax 0 [1]).2 (by
      intro h; have := h 1 (by simp); norm_num at this)).1⟩

/-! ## Relevance Scorer lemmas -/

theorem normalise_getD_range (arr : List ℝ) (i : Nat) :
    0 ≤ (normalise arr).getD i 0 ∧ (normalise arr).getD i 0 ≤ 1 := by
  by_cases h : i < (normalise arr).length
  · rw [List.getD_eq_getElem?_getD, List.getElem?_eq_getElem h]
    exact normalise_mem_range arr _ (List.getElem_mem h)
  · rw [List.getD_eq_getElem?_getD, List.getElem?_eq_none (le_of_not_lt h)]
    norm_num

theorem compute_relevance_scores_length (sections : List Sec) (p : Persona) (j : Job) :
    (compute_relevance_scores sections p j).length = sections.length := by
  rw [compute_relevance_scores, List.length_map, List.length_range]

theorem relevance_getD (sections : List Sec) (p : Persona) (j : Job) (i : Nat)
    (hi : i < sections.length) :
    (compute_relevance_scores sections p j).getD i 0 =
      WEIGHT_SEMANTIC * (semNorm sections p j).getD i 0 +
      WEIGHT_PERSONA * (persNorm sections p).getD i 0 +
      WEIGHT_ACTION * (actNorm sections).getD i 0 +
      WEIGHT_CROSS_DOC * (crossNorm sections).getD i 0 := by
  rw [compute_relevance_scores, List.getD_eq_getElem?_getD, List.getElem?_map,
    List.getElem?_range hi]
  rfl

/-- C5: the Relevance Scorer returns exactly one value per input section, in
input order; each value is the fixed weighted combination
`0.40·semantic + 0.25·persona + 0.20·action + 0.15·crossDoc` of the four
min-max-normalized signals, and lies in `[0, 1]`. -/
theorem c5_relevance_scores (sections : List Sec) (p : Persona) (j : Job) :
    (compute_relevance_scores sections p j).length = sections.length ∧
    ∀ i, i < sections.length →
      (compute_relevance_scores sections p j).getD i 0 =
        0.40 * (semNorm sections p j).getD i 0 +
        0.25 * (persNorm sections p).getD i 0 +
        0.20 * (actNorm sections).getD i 0 +
        0.15 * (crossNorm sections).getD i 0 ∧
      0 ≤ (compute_relevance_scores sections p j).getD i 0 ∧
      (compute_relevance_scores sections p j).getD i 0 ≤ 1 := by
  refine ⟨compute_relevance_scores_length sections p j, fun i hi => ?_⟩
  have heq := relevance_getD sections p j i hi
  have hsem := normalise_getD_range (compute_semantic_similarity sections (queryOf p j)) i
  have hpers := normalise_getD_range
    (compute_persona_match sections (personaRole p ++ " " ++ personaDesc p)) i
  have hact := normalise_getD_range (compute_actionability sections) i
  have hcross := normalise_getD_range (compute_cross_document_importance sections) i
  rw [semNorm] at heq
  rw [persNorm] at heq
  rw [actNorm] at heq
  rw [crossNorm] at heq
  rw [WEIGHT_SEMANTIC, WEIGHT_PERSONA, WEIGHT_ACTION, WEIGHT_CROSS_DOC] at heq
  refine ⟨by rw [heq, semNorm, persNorm, actNorm, crossNorm], ?_, ?_⟩
  · rw [heq]
    have := hsem.1; have := hpers.1; have := hact.1; have := hcross.1
    nlinarith [hsem.1, hpers.1, hact.1, hcross.1]
  · rw [heq]
    nlinarith [hsem.1, hsem.2, hpers.1, hpers.2, hact.1, hact.2, hcross.1, hcross.2]

/-- Witness for C5: a one-section input; the score at index 0 is within
bounds. -/
theorem c5_relevance_scores_witness :
    0 < ([{ section_title := "t", text := "", page_number := 1, document := none }] :
      List Sec).length ∧
    0 ≤ (compute_relevance_scores
      [{ section_title := "t", text := "", page_number := 1, document := none }]
      ⟨none, none⟩ ⟨none⟩).getD 0 0 :=
  ⟨by norm_num,
   ((c5_relevance_scores
      [{ section_title := "t", text := "", page_number := 1, document := none }]
      ⟨none, none⟩ ⟨none⟩).2 0 (by norm_num)).2.1⟩

/-! ## Stable descending sort lemmas -/

theorem insertDesc_perm {α K : Type} [LinearOrder K] (x : α × K) (l : List (α × K)) :
    List.Perm (insertDesc x l) (x :: l) := by
  induction l with
  | nil => exact List.Perm.refl _
  | cons y ys ih =>
    rw [insertDesc]
    by_cases h : y.2 ≤ x.2
    · rw [if_pos h]
    · rw [if_neg h]
      exact (ih.cons y).trans (List.Perm.swap x y ys)

theorem sortDesc_perm {α K : Type} [LinearOrder K] (l : List (α × K)) :
    List.Perm (sortDesc l) l := by
  induction l with
  | nil => exact List.Perm.refl _
  | cons x t ih =>
    exact (insertDesc_perm x (sortDesc t)).trans (ih.cons x)

theorem insertDesc_sorted {α K : Type} [LinearOrder K] (x : α × K) (l : List (α × K))
    (hl : l.Pairwise (fun a b => b.2 ≤ a.2)) :
    (insertDesc x l).Pairwise (fun a b => b.2 ≤ a.2) := by
  induction l with
  | nil => simp [insertDesc]
  | cons y ys ih =>
    rw [insertDesc]
    rcases List.pairwise_cons.mp hl with ⟨hy, hys⟩
    by_cases h : y.2 ≤ x.2
    · rw [if_pos h]
      refine List.pairwise_cons.mpr ⟨?_, hl⟩
      intro z hz
      rcases List.mem_cons.mp hz with rfl | hz
      · exact h
      · exact le_trans (hy z hz) h
    · rw [if_neg h]
      refine List.pairwise_cons.mpr ⟨?_, ih hys⟩
      intro z hz
      have hz' : z ∈ x :: ys := (insertDesc_perm x ys).mem_iff.mp hz
      rcases List.mem_cons.mp hz' with rfl | hz'
      · exact le_of_lt (lt_of_not_le h)
      · exact hy z hz'

theorem sortDesc_sorted {α K : Type} [LinearOrder K] (l : List (α × K)) :
    (sortDesc l).Pairwise (fun a b => b.2 ≤ a.2) := by
  induction l with
  | nil => simp [sortDesc]
  | cons x t ih => exact insertDesc_sorted x (sortDesc t) ih

/-- Inserting an element keeps the sublist of any fixed key unchanged except
for the inserted element, which lands at its front: the elements passed over
have strictly larger keys. -/
theorem insertDesc_filter_eq {α K : Type} [LinearOrder K] (v : K) (x : α × K) :
    ∀ l : List (α × K),
    (insertDesc x l).filter (fun q => decide (q.2 = v)) =
      if x.2 = v then x :: l.filter (fun q => decide (q.2 = v))
      else l.filter (fun q => decide (q.2 = v))
  | [] => by
    by_cases hx : x.2 = v <;> simp [insertDesc, List.filter_cons, hx]
  | y :: ys => by
    rw [insertDesc]
    by_cases h : y.2 ≤ x.2
    · rw [if_pos h]
      by_cases hx : x.2 = v <;> simp [List.filter_cons, hx]
    · rw [if_neg h]
      by_cases hx : x.2 = v <;> by_cases hy : y.2 = v
      · exact absurd (le_of_eq (hy.trans hx.symm)) h
      · simp [List.filter_cons, hx, hy, insertDesc_filter_eq v x ys]
      · simp [List.filter_cons, hx, hy, insertDesc_filter_eq v x ys]
      · simp [List.filter_cons, hx, hy, insertDesc_filter_eq v x ys]

/-- Stability of the descending sort: for every key value, the sublist of
elements carrying that key is preserved. -/
theorem sortDesc_filter_eq {α K : Type} [LinearOrder K] (v : K) :
    ∀ l : List (α × K),
    (sortDesc l).filter (fun q => decide (q.2 = v)) =
      l.filter (fun q => decide (q.2 = v))
  | [] => rfl
  | x :: t => by
    rw [sortDesc, insertDesc_filter_eq]
    by_cases hx : x.2 = v <;> simp [List.filter_cons, hx, sortDesc_filter_eq v t]

/-- Filtering and projecting an enumerated list by a property of the element
alone forgets the indices. -/
theorem enumFrom_filter_map {α β : Type} (q : α → Bool) (g : α → β) :
    ∀ (n : Nat) (l : List α),
    ((List.enumFrom n l).filter (fun ie => q ie.2)).map (fun ie => g ie.2) =
      (l.filter q).map g := by
  intro n l
  induction l generalizing n with
  | nil => rfl
  | cons a t ih =>
    by_cases h : q a <;> simp [List.enumFrom_cons, List.filter_cons, h, ih]

/-! ## Ranker (claims C3 and C4) -/

theorem rank_sections_eq (sections : List Sec) (pers : Persona) (job : Job)
    (hne : sections ≠ []) :
    rank_sections sections pers job =
      (sortDesc (sections.zip (compute_relevance_scores sections pers job))).enum.map
        (fun ie => ⟨ie.2.1, ie.1 + 1, ie.2.2⟩) := by
  have h : sections.isEmpty = false := by
    cases sections with
    | nil => exact absurd rfl hne
    | cons a t => rfl
  rw [rank_sections, h]
  rfl

theorem sortDesc_zip_length (sections : List Sec) (pers : Persona) (job : Job) :
    (sortDesc (sections.zip (compute_relevance_scores sections pers job))).length =
      sections.length := by
  rw [(sortDesc_perm _).length_eq, List.length_zip,
    compute_relevance_scores_length, min_self]

/-- C3: on a non-empty input, ranking returns a permutation of the input
sections paired with their computed scores, attaching a 1-based
`importance_rank`; the output has one entry per input section, the rank at
position `i` is exactly `i + 1` (so ranks are exactly `1..len(sections)`),
and along the output ranks strictly increase while scores do not increase. -/
theorem c3_rank_sections (sections : List Sec) (pers : Persona) (job : Job)
    (hne : sections ≠ []) :
    ((rank_sections sections pers job).map (fun x => (x.sec, x.score))).Perm
      (sections.zip (compute_relevance_scores sections pers job)) ∧
    (rank_sections sections pers job).length = sections.length ∧
    (∀ i (hi : i < (rank_sections sections pers job).length),
      ((rank_sections sections pers job).get ⟨i, hi⟩).importance_rank = i + 1) ∧
    (∀ i i' (hi : i < (rank_sections sections pers job).length)
        (hi' : i' < (rank_sections sections pers job).length), i < i' →
      ((rank_sections sections pers job).get ⟨i, hi⟩).importance_rank <
        ((rank_sections sections pers job).get ⟨i', hi'⟩).importance_rank ∧
      ((rank_sections sections pers job).get ⟨i', hi'⟩).score ≤
        ((rank_sections sections pers job).get ⟨i, hi⟩).score) := by
  have heq := rank_sections_eq sections pers job hne
  have hlen : (rank_sections sections pers job).length = sections.length := by
    rw [heq, List.length_map, List.enum_length, sortDesc_zip_length]
  have hget : ∀ i (hi : i < (rank_sections sections pers job).length),
      ∃ hs : i < (sortDesc (sections.zip
          (compute_relevance_scores sections pers job))).length,
      (rank_sections sections pers job).get ⟨i, hi⟩ =
        ⟨((sortDesc (sections.zip (compute_relevance_scores sections pers job))).get
            ⟨i, hs⟩).1, i + 1,
          ((sortDesc (sections.zip (compute_relevance_scores sections pers job))).get
            ⟨i, hs⟩).2⟩ := by
    intro i hi
    have hs : i < (sortDesc (sections.zip
        (compute_relevance_scores sections pers job))).length := by
      rw [sortDesc_zip_length]; rw [hlen] at hi; exact hi
    refine ⟨hs, ?_⟩
    rw [List.get_of_eq heq ⟨i, hi⟩]
    simp only [List.get_eq_getElem, List.getElem_map, List.getElem_enum]
  refine ⟨?_, hlen, ?_, ?_⟩
  · have : (rank_sections sections pers job).map (fun x => (x.sec, x.score)) =
        sortDesc (sections.zip (compute_relevance_scores sections pers job)) := by
      rw [heq, List.map_map]
      have : ((fun x : Ranked => (x.sec, x.score)) ∘
          fun ie : Nat × (Sec × ℝ) => (⟨ie.2.1, ie.1 + 1, ie.2.2⟩ : Ranked)) =
          fun ie : Nat × (Sec × ℝ) => ie.2 := by
        funext ie; rfl
      rw [this]
      have : (fun ie : Nat × (Sec × ℝ) => ie.2) = Prod.snd := rfl
      rw [this, List.enum_map_snd]
    rw [this]
    exact sortDesc_perm _
  · intro i hi
    rcases hget i hi with ⟨hs, hg⟩
    rw [hg]
  · intro i i' hi hi' hlt
    rcases hget i hi with ⟨hs, hg⟩
    rcases hget i' hi' with ⟨hs', hg'⟩
    rw [hg, hg']
    refine ⟨by show i + 1 < i' + 1; omega, ?_⟩
    show ((sortDesc (sections.zip
        (compute_relevance_scores sections pers job))).get ⟨i', hs'⟩).2 ≤
      ((sortDesc (sections.zip
        (compute_relevance_scores sections pers job))).get ⟨i, hs⟩).2
    have hsorted := sortDesc_sorted
      (sections.zip (compute_relevance_scores sections pers job))
    exact List.pairwise_iff_get.mp hsorted ⟨i, hs⟩ ⟨i', hs'⟩ hlt

/-- Witness for C3: a two-section input is ranked with one entry per
section. -/
theorem c3_rank_sections_witness :
    (rank_sections
      [{ section_title := "A", text := "x", page_number := 1, document := none },
       { section_title := "B", text := "y", page_number := 2, document := none }]
      ⟨none, none⟩ ⟨none⟩).length =
    ([{ section_title := "A", text := "x", page_number := 1, document := none },
      { section_title := "B", text := "y", page_number := 2, document := none }] :
        List Sec).length :=
  (c3_rank_sections _ ⟨none, none⟩ ⟨none⟩ (by decide)).2.1

/-- C4: the descending sort inside `rank_sections` is stable — for every
score value `v`, the sections whose composite score equals `v` appear in the
ranked output in exactly their input order. -/
theorem c4_rank_stability (sections : List Sec) (pers : Persona) (job : Job) (v : ℝ) :
    ((rank_sections sections pers job).filter (fun x => decide (x.score = v))).map
        (fun x => x.sec) =
      ((sections.zip (compute_relevance_scores sections pers job)).filter
        (fun q => decide (q.2 = v))).map Prod.fst := by
  cases sections with
  | nil => rfl
  | cons s t =>
    have hne : s :: t ≠ ([] : List Sec) := by intro h; cases h
    rw [rank_sections_eq (s :: t) pers job hne]
    rw [List.filter_map, List.map_map]
    have h1 : ((fun x : Ranked => decide (x.score = v)) ∘
        fun ie : Nat × (Sec × ℝ) => (⟨ie.2.1, ie.1 + 1, ie.2.2⟩ : Ranked)) =
        fun ie : Nat × (Sec × ℝ) => decide (ie.2.2 = v) := by
      funext ie; rfl
    have h2 : ((fun x : Ranked => x.sec) ∘
        fun ie : Nat × (Sec × ℝ) => (⟨ie.2.1, ie.1 + 1, ie.2.2⟩ : Ranked)) =
        fun ie : Nat × (Sec × ℝ) => ie.2.1 := by
      funext ie; rfl
    rw [h1, h2]
    have h3 := enumFrom_filter_map (fun q : Sec × ℝ => decide (q.2 = v))
      (fun q : Sec × ℝ => q.1) 0
      (sortDesc ((s :: t).zip (compute_relevance_scores (s :: t) pers job)))
    rw [List.enum]
    rw [h3]
    rw [sortDesc_filter_eq]

/-! ## Cosine similarity lemmas (claim C6) -/

theorem valAt_cons (q : String × ℝ) (t : List (String × ℝ)) (k : String) :
    valAt (q :: t) k = if k = q.1 then q.2 else valAt t k := by
  by_cases h : k = q.1
  · simp [valAt, List.lookup, h]
  · simp only [valAt, List.lookup, beq_eq_false_iff_ne.mpr h, if_neg h]

theorem lookup_eq_some_of_mem :
    ∀ {v : List (String × ℝ)}, ((v.map Prod.fst).Nodup) →
    ∀ {p : String × ℝ}, p ∈ v → v.lookup p.1 = some p.2 := by
  intro v
  induction v with
  | nil => intro _ p hp; cases hp
  | cons q t ih =>
    intro hnd p hp
    rw [List.map_cons, List.nodup_cons] at hnd
    rcases List.mem_cons.mp hp with rfl | hp'
    · simp [List.lookup]
    · have hne : p.1 ≠ q.1 := by
        intro h
        exact hnd.1 (h ▸ List.mem_map_of_mem Prod.fst hp')
      simp only [List.lookup, beq_eq_false_iff_ne.mpr hne]
      exact ih hnd.2 hp'

theorem lookup_eq_none_of_not_mem :
    ∀ {v : List (String × ℝ)} {k : String}, k ∉ v.map Prod.fst → v.lookup k = none := by
  intro v
  induction v with
  | nil => intro k _; rfl
  | cons q t ih =>
    intro k h
    rw [List.map_cons, List.mem_cons] at h
    push_neg at h
    simp only [List.lookup, beq_eq_false_iff_ne.mpr h.1]
    exact ih h.2

theorem valAt_of_mem {v : List (String × ℝ)} (hnd : (v.map Prod.fst).Nodup)
    {p : String × ℝ} (hp : p ∈ v) : valAt v p.1 = p.2 := by
  rw [valAt, lookup_eq_some_of_mem hnd hp]
  rfl

theorem valAt_of_not_mem {v : List (String × ℝ)} {k : String}
    (h : k ∉ v.map Prod.fst) : valAt v k = 0 := by
  rw [valAt, lookup_eq_none_of_not_mem h]
  rfl

theorem valAt_nonneg {v : List (String × ℝ)} (hv : ∀ q ∈ v, 0 ≤ q.2) (k : String) :
    0 ≤ valAt v k := by
  induction v with
  | nil => simp [valAt, List.lookup]
  | cons q t ih =>
    rw [valAt_cons]
    by_cases h : k = q.1
    · rw [if_pos h]
      exact hv q (List.mem_cons_self q t)
    · rw [if_neg h]
      exact ih fun r hr => hv r (List.mem_cons_of_mem _ hr)

/-- Under distinct keys, the dot-product loop is the sum of products of the
looked-up values over the first dict's key set. -/
theorem dotOver_eq_sum (v1 v2 : List (String × ℝ)) (h1 : (v1.map Prod.fst).Nodup) :
    dotOver v1 v2 =
      ((v1.map Prod.fst).toFinset).sum (fun k => valAt v1 k * valAt v2 k) := by
  rw [dotOver]
  have hcong : v1.map (fun p => p.2 * valAt v2 p.1) =
      v1.map (fun p => valAt v1 p.1 * valAt v2 p.1) :=
    List.map_congr_left fun p hp => by rw [valAt_of_mem h1 hp]
  have hcomp : v1.map (fun p => valAt v1 p.1 * valAt v2 p.1) =
      (v1.map Prod.fst).map (fun k => valAt v1 k * valAt v2 k) := by
    rw [List.map_map]
    rfl
  rw [hcong, hcomp]
  exact (List.sum_toFinset _ h1).symm

/-- A sum of `valAt v k * g k` over the key set of `v` extends to any finite
superset: the extra keys contribute `0`. -/
theorem sum_valAt_mul_ext (v : List (String × ℝ)) (g : String → ℝ) (K : Finset String)
    (hK : (v.map Prod.fst).toFinset ⊆ K) :
    ((v.map Prod.fst).toFinset).sum (fun k => valAt v k * g k) =
      K.sum (fun k => valAt v k * g k) :=
  Finset.sum_subset hK fun x _ hx => by
    rw [valAt_of_not_mem fun hmem => hx (List.mem_toFinset.mpr hmem), zero_mul]

theorem sumSq_eq_sum (v : List (String × ℝ)) (h1 : (v.map Prod.fst).Nodup) :
    sumSq v = ((v.map Prod.fst).toFinset).sum (fun k => valAt v k * valAt v k) := by
  rw [sumSq]
  have hcong : v.map (fun p => p.2 * p.2) =
      v.map (fun p => valAt v p.1 * valAt v p.1) :=
    List.map_congr_left fun p hp => by rw [valAt_of_mem h1 hp]
  have hcomp : v.map (fun p => valAt v p.1 * valAt v p.1) =
      (v.map Prod.fst).map (fun k => valAt v k * valAt v k) := by
    rw [List.map_map]
    rfl
  rw [hcong, hcomp]
  exact (List.sum_toFinset _ h1).symm

theorem sumSq_nonneg (v : List (String × ℝ)) : 0 ≤ sumSq v := by
  refine List.sum_nonneg fun x hx => ?_
  rcases List.mem_map.mp hx with ⟨p, _, rfl⟩
  exact mul_self_nonneg p.2

/-- The dot product over the intersection of keys is symmetric. -/
theorem dotOver_comm (v1 v2 : List (String × ℝ)) (h1 : (v1.map Prod.fst).Nodup)
    (h2 : (v2.map Prod.fst).Nodup) : dotOver v1 v2 = dotOver v2 v1 := by
  rw [dotOver_eq_sum v1 v2 h1, dotOver_eq_sum v2 v1 h2,
    sum_valAt_mul_ext v1 (valAt v2)
      ((v1.map Prod.fst).toFinset ∪ (v2.map Prod.fst).toFinset)
      Finset.subset_union_left,
    sum_valAt_mul_ext v2 (valAt v1)
      ((v1.map Prod.fst).toFinset ∪ (v2.map Prod.fst).toFinset)
      Finset.subset_union_right]
  exact Finset.sum_congr rfl fun k _ => mul_comm _ _

/-- Symmetry of `_cosine_similarity` on dicts with distinct keys. -/
theorem cosine_comm (v1 v2 : List (String × ℝ)) (h1 : (v1.map Prod.fst).Nodup)
    (h2 : (v2.map Prod.fst).Nodup) :
    _cosine_similarity v1 v2 = _cosine_similarity v2 v1 := by
  rw [_cosine_similarity, _cosine_similarity]
  by_cases he1 : v1.isEmpty = true <;> by_cases he2 : v2.isEmpty = true
  · simp [he1, he2]
  · simp [he1, he2]
  · simp [he1, he2]
  · simp only [he1, he2, Bool.or_self, Bool.false_eq_true, if_false,
      Bool.or_false, Bool.false_or]
    have hdot : (if v1.length < v2.length then dotOver v1 v2 else dotOver v2 v1) =
        (if v2.length < v1.length then dotOver v2 v1 else dotOver v1 v2) := by
      rcases lt_trichotomy v1.length v2.length with hlt | heq | hgt
      · rw [if_pos hlt, if_neg (by omega)]
      · rw [if_neg (by omega), if_neg (by omega)]
        exact dotOver_comm v2 v1 h2 h1
      · rw [if_neg (by omega), if_pos hgt]
    rw [hdot]
    by_cases hz : Real.sqrt (sumSq v1) = 0 ∨ Real.sqrt (sumSq v2) = 0
    · rw [if_pos hz, if_pos (Or.symm hz)]
    · rw [if_neg hz, if_neg fun h => hz (Or.symm h), mul_comm]

/-- `_cosine_similarity` lies in `[0, 1]` on dicts with distinct keys and
non-negative values. -/
theorem cosine_range (v1 v2 : List (String × ℝ)) (h1 : (v1.map Prod.fst).Nodup)
    (h2 : (v2.map Prod.fst).Nodup) (hn1 : ∀ q ∈ v1, 0 ≤ q.2)
    (hn2 : ∀ q ∈ v2, 0 ≤ q.2) :
    0 ≤ _cosine_similarity v1 v2 ∧ _cosine_similarity v1 v2 ≤ 1 := by
  rw [_cosine_similarity]
  by_cases he : (v1.isEmpty || v2.isEmpty) = true
  · rw [if_pos he]
    norm_num
  · rw [if_neg he]
    have hdot_eq : (if v1.length < v2.length then dotOver v1 v2 else dotOver v2 v1) =
        ((v1.map Prod.fst).toFinset ∪ (v2.map Prod.fst).toFinset).sum
          (fun k => valAt v1 k * valAt v2 k) := by
      by_cases hl : v1.length < v2.length
      · rw [if_pos hl, dotOver_eq_sum v1 v2 h1,
          sum_valAt_mul_ext v1 (valAt v2) _ Finset.subset_union_left]
      · rw [if_neg hl, dotOver_eq_sum v2 v1 h2,
          sum_valAt_mul_ext v2 (valAt v1) _ Finset.subset_union_right]
        exact Finset.sum_congr rfl fun k _ => mul_comm _ _
    have hdot_nonneg : 0 ≤ ((v1.map Prod.fst).toFinset ∪ (v2.map Prod.fst).toFinset).sum
        (fun k => valAt v1 k * valAt v2 k) :=
      Finset.sum_nonneg fun k _ => mul_nonneg (valAt_nonneg hn1 k) (valAt_nonneg hn2 k)
    by_cases hz : Real.sqrt (sumSq v1) = 0 ∨ Real.sqrt (sumSq v2) = 0
    · rw [if_pos hz]
      norm_num
    · rw [if_neg hz]
      push_neg at hz
      have hpos1 : 0 < Real.sqrt (sumSq v1) :=
        lt_of_le_of_ne (Real.sqrt_nonneg _) (Ne.symm hz.1)
      have hpos2 : 0 < Real.sqrt (sumSq v2) :=
        lt_of_le_of_ne (Real.sqrt_nonneg _) (Ne.symm hz.2)
      constructor
      · refine div_nonneg ?_ (mul_nonneg (Real.sqrt_nonneg _) (Real.sqrt_nonneg _))
        rw [hdot_eq]
        exact hdot_nonneg
      · rw [div_le_one (mul_pos hpos1 hpos2), hdot_eq,
          ← Real.sqrt_mul (sumSq_nonneg v1) (sumSq v2)]
        refine (Real.le_sqrt hdot_nonneg
          (mul_nonneg (sumSq_nonneg v1) (sumSq_nonneg v2))).mpr ?_
        have hS1 : sumSq v1 = ((v1.map Prod.fst).toFinset ∪ (v2.map Prod.fst).toFinset).sum
            (fun k => valAt v1 k * valAt v1 k) := by
          rw [sumSq_eq_sum v1 h1,
            sum_valAt_mul_ext v1 (valAt v1) _ Finset.subset_union_left]
        have hS2 : sumSq v2 = ((v1.map Prod.fst).toFinset ∪ (v2.map Prod.fst).toFinset).sum
            (fun k => valAt v2 k * valAt v2 k) := by
          rw [sumSq_eq_sum v2 h2,
            sum_valAt_mul_ext v2 (valAt v2) _ Finset.subset_union_right]
        have hcs := Finset.sum_mul_sq_le_sq_mul_sq
          ((v1.map Prod.fst).toFinset ∪ (v2.map Prod.fst).toFinset)
          (valAt v1) (valAt v2)
        calc (((v1.map Prod.fst).toFinset ∪ (v2.map Prod.fst).toFinset).sum
                (fun k => valAt v1 k * valAt v2 k)) ^ 2
            ≤ (((v1.map Prod.fst).toFinset ∪ (v2.map Prod.fst).toFinset).sum
                (fun k => valAt v1 k ^ 2)) *
              (((v1.map Prod.fst).toFinset ∪ (v2.map Prod.fst).toFinset).sum
                (fun k => valAt v2 k ^ 2)) := hcs
          _ = sumSq v1 * sumSq v2 := by
              rw [hS1, hS2]
              congr 1 <;> exact Finset.sum_congr rfl fun k _ => pow_two _

theorem distinctL_nodup {α : Type} [DecidableEq α] : ∀ l : List α, (distinctL l).Nodup
  | [] => List.nodup_nil
  | a :: l => by
    rw [distinctL]
    refine List.nodup_cons.mpr ⟨?_, (distinctL_nodup l).filter _⟩
    intro hmem
    have := (List.mem_filter.mp hmem).2
    simp at this

theorem tf_keys (words : List String) :
    (_compute_tf words).map Prod.fst = distinctL words := by
  rw [_compute_tf, List.map_map]
  exact List.map_id _

theorem tfidf_keys (tf : List (String × ℝ)) (idf : String → ℝ) :
    (_compute_tfidf_vector tf idf).map Prod.fst = tf.map Prod.fst := by
  rw [_compute_tfidf_vector, List.map_map]
  rfl

theorem idfVal_nonneg (docs : List (List String)) (tok : String) :
    0 ≤ idfVal docs tok := by
  rw [idfVal]
  by_cases h : docCount docs tok = 0
  · rw [if_pos h]
  · rw [if_neg h]
    have hdf : (docCount docs tok : ℝ) ≤ (docs.length : ℝ) := by
      exact_mod_cast List.length_filter_le _ _
    have hpos : (0 : ℝ) < 1 + (docCount docs tok : ℝ) := by positivity
    have h1 : (1 : ℝ) ≤ (1 + (docs.length : ℝ)) / (1 + (docCount docs tok : ℝ)) := by
      rw [le_div_iff₀ hpos]
      linarith
    have := Real.log_nonneg h1
    linarith

theorem tf_nonneg (words : List String) : ∀ q ∈ _compute_tf words, 0 ≤ q.2 := by
  intro q hq
  rcases List.mem_map.mp hq with ⟨w, _, rfl⟩
  exact div_nonneg (Nat.cast_nonneg _) (Nat.cast_nonneg _)

/-- TF-IDF vectors have pairwise distinct keys and non-negative weights, so
the range conclusions of C6 apply to them. -/
theorem tfidf_wellformed (words : List String) (docs : List (List String)) :
    ((_compute_tfidf_vector (_compute_tf words) (idfVal docs)).map Prod.fst).Nodup ∧
    ∀ q ∈ _compute_tfidf_vector (_compute_tf words) (idfVal docs), 0 ≤ q.2 := by
  constructor
  · rw [tfidf_keys, tf_keys]
    exact distinctL_nodup words
  · intro q hq
    rcases List.mem_map.mp hq with ⟨r, hr, rfl⟩
    exact mul_nonneg (tf_nonneg words r hr) (idfVal_nonneg docs r.1)

/-- C6: cosine similarity is symmetric on term-weight dicts (distinct keys);
on dicts with non-negative weights — in particular every TF-IDF vector — it
lies in `[0, 1]`; and it returns `0` whenever either dict is empty or either
L2 norm is `0`, so no division by zero ever occurs. -/
theorem c6_cosine_similarity :
    (∀ v1 v2 : List (String × ℝ), (v1.map Prod.fst).Nodup → (v2.map Prod.fst).Nodup →
      _cosine_similarity v1 v2 = _cosine_similarity v2 v1) ∧
    (∀ v1 v2 : List (String × ℝ), (v1.map Prod.fst).Nodup → (v2.map Prod.fst).Nodup →
      (∀ q ∈ v1, 0 ≤ q.2) → (∀ q ∈ v2, 0 ≤ q.2) →
      0 ≤ _cosine_similarity v1 v2 ∧ _cosine_similarity v1 v2 ≤ 1) ∧
    (∀ v : List (String × ℝ),
      _cosine_similarity [] v = 0 ∧ _cosine_similarity v [] = 0) ∧
    (∀ v1 v2 : List (String × ℝ),
      Real.sqrt (sumSq v1) = 0 ∨ Real.sqrt (sumSq v2) = 0 →
      _cosine_similarity v1 v2 = 0) ∧
    (∀ (words : List String) (docs : List (List String)),
      ((_compute_tfidf_vector (_compute_tf words) (idfVal docs)).map Prod.fst).Nodup ∧
      ∀ q ∈ _compute_tfidf_vector (_compute_tf words) (idfVal docs), 0 ≤ q.2) := by
  refine ⟨cosine_comm, cosine_range, ?_, ?_, tfidf_wellformed⟩
  · intro v
    constructor
    · rw [_cosine_similarity]
      rfl
    · rw [_cosine_similarity]
      have h : (v.isEmpty || List.isEmpty ([] : List (String × ℝ))) = true := by
        simp [List.isEmpty]
      rw [if_pos h]
  · intro v1 v2 hz
    rw [_cosine_similarity]
    by_cases he : (v1.isEmpty || v2.isEmpty) = true
    · rw [if_pos he]
    · rw [if_neg he, if_pos hz]

/-- Witness for C6: concrete one-entry dicts discharge the distinct-key and
non-negativity hypotheses. -/
theorem c6_cosine_similarity_witness :
    (([("a", (1 : ℝ))].map Prod.fst).Nodup) ∧
    _cosine_similarity [("a", (1 : ℝ))] [("b", (2 : ℝ))] =
      _cosine_similarity [("b", (2 : ℝ))] [("a", (1 : ℝ))] ∧
    0 ≤ _cosine_similarity [("a", (1 : ℝ))] [("a", (2 : ℝ))] ∧
    _cosine_similarity [("a", (1 : ℝ))] [("a", (2 : ℝ))] ≤ 1 :=
  ⟨by simp,
   c6_cosine_similarity.1 _ _ (by simp) (by simp),
   (c6_cosine_similarity.2.1 _ _ (by simp) (by simp)
     (by intro q hq; simp at hq; rw [hq]; norm_num)
     (by intro q hq; simp at hq; rw [hq]; norm_num)).1,
   (c6_cosine_similarity.2.1 _ _ (by simp) (by simp)
     (by intro q hq; simp at hq; rw [hq]; norm_num)
     (by intro q hq; simp at hq; rw [hq]; norm_num)).2⟩

/-! ## Refiner (claim C9) -/

/-- Per-section behaviour of the Refiner: with no usable sentence the
excerpt is the 300-character cut of the trimmed text; otherwise it is a
non-empty selection of at most two sentences, each scoring at least every
unselected sentence, joined by single spaces. -/
theorem refineOne_spec (qts : List String) (sec : Sec) :
    (_split_into_sentences sec.text = [] →
      (refineOne qts sec).refined_text = takeS (stripS sec.text) 300 ∧
      (refineOne qts sec).refined_text.length ≤ 300) ∧
    (_split_into_sentences sec.text ≠ [] →
      ∃ chosen rest : List (String × ℚ),
        chosen ≠ [] ∧ chosen.length ≤ 2 ∧
        List.Perm (chosen ++ rest)
          ((_split_into_sentences sec.text).map
            (fun s => (s, _score_sentence s qts))) ∧
        (∀ a ∈ chosen, ∀ b ∈ rest, b.2 ≤ a.2) ∧
        (refineOne qts sec).refined_text =
          stripS (joinWithSpace (chosen.map Prod.fst))) := by
  constructor
  · intro hnil
    have hempty : (_split_into_sentences sec.text).isEmpty = true := by
      rw [hnil]; rfl
    have hr : (refineOne qts sec).refined_text = takeS (stripS sec.text) 300 := by
      rw [refineOne]
      simp only [hempty, if_true]
    refine ⟨hr, ?_⟩
    rw [hr]
    show ((stripS sec.text).data.take 300).length ≤ 300
    rw [List.length_take]
    exact min_le_left _ _
  · intro hne
    have hempty : (_split_into_sentences sec.text).isEmpty = false := by
      cases h : _split_into_sentences sec.text with
      | nil => exact absurd h hne
      | cons a t => rfl
    refine ⟨((sortDesc ((_split_into_sentences sec.text).map
        (fun s => (s, _score_sentence s qts)))).take 2),
      ((sortDesc ((_split_into_sentences sec.text).map
        (fun s => (s, _score_sentence s qts)))).drop 2), ?_, ?_, ?_, ?_, ?_⟩
    · have hlen : (sortDesc ((_split_into_sentences sec.text).map
          (fun s => (s, _score_sentence s qts)))).length ≠ 0 := by
        rw [(sortDesc_perm _).length_eq, List.length_map]
        intro h
        exact hne (List.eq_nil_of_length_eq_zero h)
      cases hsort : sortDesc ((_split_into_sentences sec.text).map
          (fun s => (s, _score_sentence s qts))) with
      | nil => rw [hsort] at hlen; exact absurd rfl hlen
      | cons a t => simp
    · rw [List.length_take]
      exact min_le_left _ _
    · rw [List.take_append_drop]
      exact sortDesc_perm _
    · intro a ha b hb
      exact (sortDesc_sorted _).rel_of_mem_take_of_mem_drop ha hb
    · rw [refineOne]
      simp [hempty]

/-- C9: for every section processed by the Refiner, if sentence splitting
(boundaries after `.`, `!` or `?` plus whitespace, discarding sentences of
trimmed length ≤ 20) yields no usable sentence, `refined_text` is the first
300 characters of the trimmed section text (hence ≤ 300 characters long);
otherwise it is at most the 2 highest-scoring sentences, in selection order,
joined with single spaces. -/
theorem c9_refine_subsections (ranked : List Sec) (pers : Persona) (job : Job)
    (n i : Nat) (hi : i < (refine_subsections ranked pers job n).length) :
    (_split_into_sentences ((ranked.take n).getD i ⟨"", "", 0, none⟩).text = [] →
      ((refine_subsections ranked pers job n).getD i ⟨none, "", 0⟩).refined_text =
        takeS (stripS ((ranked.take n).getD i ⟨"", "", 0, none⟩).text) 300 ∧
      ((refine_subsections ranked pers job n).getD i
        ⟨none, "", 0⟩).refined_text.length ≤ 300) ∧
    (_split_into_sentences ((ranked.take n).getD i ⟨"", "", 0, none⟩).text ≠ [] →
      ∃ chosen rest : List (String × ℚ),
        chosen ≠ [] ∧ chosen.length ≤ 2 ∧
        List.Perm (chosen ++ rest)
          ((_split_into_sentences ((ranked.take n).getD i ⟨"", "", 0, none⟩).text).map
            (fun s => (s, _score_sentence s (queryTermsOf pers job)))) ∧
        (∀ a ∈ chosen, ∀ b ∈ rest, b.2 ≤ a.2) ∧
        ((refine_subsections ranked pers job n).getD i ⟨none, "", 0⟩).refined_text =
          stripS (joinWithSpace (chosen.map Prod.fst))) := by
  have hs : i < (ranked.take n).length := by
    rw [refine_subsections, List.length_map] at hi
    exact hi
  have h1 : (refine_subsections ranked pers job n).getD i ⟨none, "", 0⟩ =
      refineOne (queryTermsOf pers job) ((ranked.take n).get ⟨i, hs⟩) := by
    rw [refine_subsections, List.getD_eq_getElem?_getD, List.getElem?_map,
      List.getElem?_eq_getElem hs]
    rfl
  have h2 : (ranked.take n).getD i ⟨"", "", 0, none⟩ = (ranked.take n).get ⟨i, hs⟩ := by
    rw [List.getD_eq_getElem?_getD, List.getElem?_eq_getElem hs]
    rfl
  rw [h1, h2]
  exact refineOne_spec (queryTermsOf pers job) ((ranked.take n).get ⟨i, hs⟩)

/-- Witness for C9: one short section with no usable sentence takes the
300-character fallback path. -/
theorem c9_refine_subsections_witness :
    ((refine_subsections [Sec.mk "t" "short" 1 none] ⟨none, none⟩ ⟨none⟩ 1).getD 0
      ⟨none, "", 0⟩).refined_text.length ≤ 300 :=
  ((c9_refine_subsections [Sec.mk "t" "short" 1 none] ⟨none, none⟩ ⟨none⟩ 1 0
      (by decide)).1 (by decide)).2

/-! ## Segmenter lemmas -/

/-- A heading line directly followed by a second heading line makes the loop
flush a section for the first heading with empty body, whatever the current
accumulator state is. -/
theorem segLoop_mem_of_double_heading (p : Nat) (h1 h2 : String) (rest : List String)
    (tOpt : Option String) (cur : List String)
    (hh1 : isHeading h1 = true) (hh2 : isHeading h2 = true) :
    ({ section_title := h1, text := "", page_number := p, document := none } : Sec) ∈
      segLoop p (h1 :: h2 :: rest) tOpt cur := by
  have hflush : flushSec p h1 [] =
      ({ section_title := h1, text := "", page_number := p, document := none } : Sec) := rfl
  simp only [segLoop, hh1, if_true]
  refine List.mem_append_right _ ?_
  simp only [segLoop, hh2, if_true, hflush]
  exact List.mem_append_left _ (List.mem_singleton.mpr rfl)

/-- The flush of the first heading of a consecutive heading pair survives any
preceding lines of the page. -/
theorem segLoop_mem_of_double_heading_append (p : Nat) (pre : List String)
    (h1 h2 : String) (rest : List String)
    (hh1 : isHeading h1 = true) (hh2 : isHeading h2 = true) :
    ∀ (tOpt : Option String) (cur : List String),
    ({ section_title := h1, text := "", page_number := p, document := none } : Sec) ∈
      segLoop p (pre ++ h1 :: h2 :: rest) tOpt cur := by
  induction pre with
  | nil => exact fun tOpt cur => segLoop_mem_of_double_heading p h1 h2 rest tOpt cur hh1 hh2
  | cons l ls ih =>
    intro tOpt cur
    show _ ∈ segLoop p (l :: (ls ++ h1 :: h2 :: rest)) tOpt cur
    by_cases hl : isHeading l
    · simp only [segLoop, hl, if_true]
      exact List.mem_append_right _ (ih (some l) [])
    · simp only [segLoop, hl, if_false]
      exact ih tOpt (cur ++ [l])

/-- When no line of the page is a heading, the loop keeps accumulating and
ends in the synthetic-page branch. -/
theorem segLoop_no_heading (p : Nat) :
    ∀ (lines cur : List String), (∀ l ∈ lines, isHeading l = false) →
    segLoop p lines none cur =
      if (cur ++ lines).isEmpty then []
      else [{ section_title := "Page " ++ toString p, text := joinBody (cur ++ lines),
              page_number := p, document := none }] := by
  intro lines
  induction lines with
  | nil => intro cur _; simp [segLoop]
  | cons l ls ih =>
    intro cur h
    have hl : isHeading l = false := h l (List.mem_cons_self l ls)
    simp only [segLoop, hl, if_false]
    rw [ih (cur ++ [l]) (fun x hx => h x (List.mem_cons_of_mem _ hx))]
    simp [List.append_assoc]

/-! ## Claims C1, C2, C8, C10 -/

/-- C1, counterexample: on a page consisting of the heading line `"A. Intro"`
immediately followed by the heading line `"B. Methods"`, the Segmenter does
produce a Section for the first heading, and its `text` is empty — the claim
says no Section is produced and that every emitted Section has non-empty
text. -/
theorem c1_empty_body_counterexample :
    isHeading "A. Intro" = true ∧ isHeading "B. Methods" = true ∧
    pageSections 1 "A. Intro\nB. Methods" =
      [{ section_title := "A. Intro", text := "", page_number := 1, document := none }] :=
  ⟨by decide, by decide, by decide⟩

/-- C1 (amended): for every page, a heading line immediately followed by
another heading line (empty body) produces a Section for the first heading
whose `text` is empty — the empty-body section is flushed, not dropped; only
a heading still open at the end of the page with an empty body yields no
Section. -/
theorem c1_heading_pair_flushes_empty_section (p : Nat) (pre rest : List String)
    (h1 h2 : String) (hh1 : isHeading h1 = true) (hh2 : isHeading h2 = true) :
    ({ section_title := h1, text := "", page_number := p, document := none } : Sec) ∈
      sectionsOfLines p (pre ++ h1 :: h2 :: rest) :=
  segLoop_mem_of_double_heading_append p pre h1 h2 rest hh1 hh2 none []

/-- Witness for C1: concrete page lines with a heading pair after one body line. -/
theorem c1_heading_pair_witness :
    isHeading "A. One" = true ∧ isHeading "B. Two" = true ∧
    ({ section_title := "A. One", text := "", page_number := 2, document := none } : Sec) ∈
      sectionsOfLines 2 (["some lowercase body text"] ++ "A. One" :: "B. Two" :: []) :=
  ⟨by decide, by decide,
    c1_heading_pair_flushes_empty_section 2 ["some lowercase body text"] []
      "A. One" "B. Two" (by decide) (by decide)⟩

/-- C2, counterexample: the line `"2.3 lowercase words here"` is non-empty,
within the length and word-count limits, and has the form `"2.3 "` cited by
the claim at its start, yet the heading heuristic classifies it as not a
heading (the regex `^(\d+\.\d*|\d+|[A-Z])\.\s` requires a period directly
before the whitespace, which `"2.3 "` lacks). -/
theorem c2_enum_counterexample :
    stripS "2.3 lowercase words here" = "2.3 lowercase words here" ∧
    "2.3 lowercase words here".length ≤ 100 ∧
    (splitWords "2.3 lowercase words here").length ≤ 15 ∧
    "2.3 ".data.isPrefixOf "2.3 lowercase words here".data = true ∧
    isHeading "2.3 lowercase words here" = false :=
  ⟨by decide, by decide, by decide, by decide, by decide⟩

/-- C2 (amended): for every non-empty line not excluded by the earlier rules
(length ≤ 100 characters and word count ≤ 15), a line whose start matches the
enumeration regex `^(\d+\.\d*|\d+|[A-Z])\.\s` — a leading numeric or
alphabetic label followed by a period and whitespace, including the forms
`"1. "`, `"2.3. "` and `"A. "`, but not `"2.3 "` — is classified as a heading. -/
theorem c2_enum_line_is_heading (line : String)
    (hlen : (stripS line).length ≤ 100)
    (hwords : (splitWords (stripS line)).length ≤ 15)
    (henum : matchEnum (stripS line).data = true) :
    isHeading line = true := by
  have hne : stripS line ≠ "" := by
    intro h
    rw [h] at henum
    exact absurd henum (by decide)
  have h1 : ¬(100 < (stripS line).length) := by omega
  have h2 : ¬(15 < (splitWords (stripS line)).length) := by omega
  simp [isHeading, hne, h1, h2, henum]

/-- Witness for C2: the enumeration line `"1. Intro"` satisfies the limits and
the regex, and is classified as a heading. -/
theorem c2_enum_line_witness :
    ((stripS "1. Intro").length ≤ 100 ∧ (splitWords (stripS "1. Intro")).length ≤ 15 ∧
      matchEnum (stripS "1. Intro").data = true) ∧
    isHeading "1. Intro" = true :=
  ⟨⟨by decide, by decide, by decide⟩,
    c2_enum_line_is_heading "1. Intro" (by decide) (by decide) (by decide)⟩

/-- C8: a page with non-empty lines, none of which is classified as a heading,
yields exactly one synthetic Section titled `"Page {page_number}"` whose text
is the whole page text (the stripped non-empty lines joined by single
spaces). -/
theorem c8_page_fallback (p : Nat) (lines : List String) (hne : lines ≠ [])
    (hnh : ∀ l ∈ lines, isHeading l = false) :
    sectionsOfLines p lines =
      [{ section_title := "Page " ++ toString p,
         text := joinBody lines,
         page_number := p, document := none }] := by
  unfold sectionsOfLines
  rw [segLoop_no_heading p lines [] hnh]
  simp [joinBody, hne]

/-- Witness for C8: a concrete one-line page with no heading. -/
theorem c8_page_fallback_witness :
    (["hello world this is lowercase text"] ≠ ([] : List String) ∧
      (∀ l ∈ ["hello world this is lowercase text"], isHeading l = false)) ∧
    sectionsOfLines 3 ["hello world this is lowercase text"] =
      [{ section_title := "Page 3",
         text := joinBody ["hello world this is lowercase text"],
         page_number := 3, document := none }] :=
  ⟨⟨by decide, by decide⟩,
    c8_page_fallback 3 ["hello world this is lowercase text"] (by decide) (by decide)⟩

/-- C10: `parse_pdf` fails (raises `ValueError`) exactly when the path does
not exist or does not end case-insensitively in `".pdf"`; on every valid path
it returns the sections built from the pages — the section-building logic is
total and never errors. -/
theorem c10_parse_pdf_validation (pathExists : Bool) (filepath : String)
    (pages : List (Option String)) :
    ((∃ msg, parse_pdf pathExists filepath pages = Except.error msg) ↔
      (pathExists = false ∨ endsWithS (lowerS filepath) ".pdf" = false)) ∧
    (pathExists = true → endsWithS (lowerS filepath) ".pdf" = true →
      parse_pdf pathExists filepath pages = Except.ok (buildAllPages pages)) := by
  by_cases h1 : pathExists <;> by_cases h2 : endsWithS (lowerS filepath) ".pdf" <;>
    simp [parse_pdf, h1, h2]

/-- Witness for C10: a missing file errors, a valid `.pdf` path succeeds. -/
theorem c10_parse_pdf_witness :
    (∃ msg, parse_pdf false "doc.pdf" [] = Except.error msg) ∧
    parse_pdf true "doc.pdf" [some "a"] = Except.ok (buildAllPages [some "a"]) :=
  ⟨(c10_parse_pdf_validation false "doc.pdf" []).1.mpr (Or.inl rfl),
    (c10_parse_pdf_validation true "doc.pdf" [some "a"]).2 rfl (by decide)⟩

end Adobe
